import Mathlib

/-!
Verification development for `contextify` (src/main.go), a tool that walks a
directory tree, prunes excluded directories, filters files by extension, and
concatenates the surviving files into one annotated output stream.

Conventions of the embedding:
* Go `map[string]bool` lookup maps built by `createLookupMap` are modelled by
  `List String` with membership (`List.contains`), which agrees with map
  membership for the maps the program builds.
* The platform path separator is `/` (the tool targets a POSIX filesystem).
* The filesystem is an inductive tree `FSNode`; a `readable`/`listable` flag
  on each node models whether the corresponding `os.Open`/`ReadDir` call
  succeeds.  Children lists are carried in the order `filepath.WalkDir`
  visits them (lexical order); `sortTree` models the sorting that
  `os.ReadDir` performs on raw directory entries.
* Byte strings are `String`/`List Char`; every byte of interest (`.`, `/`,
  CR, LF) is a single-byte UTF-8 code point, so character-level modelling
  agrees with Go's byte-level scanning.
-/

/-- Split a character list at every occurrence of the separator, keeping
empty segments, with the semantics of Go's `strings.Split` (and of
`String.splitOn`): the empty input yields one empty segment. -/
def splitChar (sep : Char) : List Char → List (List Char)
  | [] => [[]]
  | c :: cs =>
    if c = sep then [] :: splitChar sep cs
    else
      match splitChar sep cs with
      | [] => [[c]]
      | s :: ss => (c :: s) :: ss

/-- Whitespace trimming of both ends, modelling Go's `strings.TrimSpace`. -/
def trimChars (l : List Char) : List Char :=
  ((l.dropWhile Char.isWhitespace).reverse.dropWhile Char.isWhitespace).reverse

/-- Model of `parseCommaSeparated` (src/main.go:75): split on commas, trim
whitespace, drop empty entries; the empty input yields no entries. -/
def parseCommaSeparated (input : String) : List String :=
  if input = "" then []
  else ((splitChar ',' input.data).map (fun p => String.mk (trimChars p))).filter
    (fun s => s ≠ "")

/-- Model of `ensureGitExcluded` (src/main.go:279): append ".git" unless the
list already contains it. -/
def ensureGitExcluded (excludeDirs : List String) : List String :=
  if excludeDirs.contains ".git" then excludeDirs else excludeDirs ++ [".git"]

/-- Exclusion list actually used by a run: `main` (src/main.go:45-46) parses
the `--exclude` flag and passes it through `ensureGitExcluded`. -/
def runExcludeList (userExclude : String) : List String :=
  ensureGitExcluded (parseCommaSeparated userExclude)

/-- Model of `shouldExcludeDir` (src/main.go:201): with a non-empty exclusion
set, a relative path is excluded when one of its `/`-separated segments is in
the set, or the whole relative path is in the set. -/
def shouldExcludeDir (relPath : String) (excludeDirs : List String) : Bool :=
  if excludeDirs.isEmpty then false
  else if (splitChar '/' relPath.data).any
      (fun part => excludeDirs.contains (String.mk part)) then true
  else excludeDirs.contains relPath

/-- Scanning core of Go's `filepath.Ext`: walk the reversed character list of
the path, stopping at a path separator with no extension, or at a dot with
the dot-prefixed suffix accumulated so far. -/
def extAux (acc : List Char) : List Char → List Char
  | [] => []
  | c :: rest =>
    if c = '/' then []
    else if c = '.' then '.' :: acc
    else extAux (c :: acc) rest

/-- Model of Go's `filepath.Ext`: the suffix of the final path element that
starts at its last dot, or `""` when the final element has no dot. -/
def filepathExt (path : String) : String :=
  String.mk (extAux [] path.data.reverse)

/-- Characters of the final path element, read while walking the reversed
path; used only to state properties about "the file name". -/
def lastElemRev : List Char → List Char
  | [] => []
  | c :: rest => if c = '/' then [] else c :: lastElemRev rest

/-- Final element of a path (the file name, per the spec's wording). -/
def fileName (path : String) : String :=
  String.mk (lastElemRev path.data.reverse).reverse

/-- Model of `shouldIncludeFile` (src/main.go:218): an empty inclusion set
includes everything, otherwise membership of the `filepath.Ext` extension
decides. -/
def shouldIncludeFile (filePath : String) (includeExts : List String) : Bool :=
  if includeExts.isEmpty then true
  else includeExts.contains (filepathExt filePath)

/-- Model of `writeHeader` (src/main.go:180): the list of header strings the
function prints, in order.  The extension line appears only when the
inclusion list is non-empty. -/
def writeHeader (absPath : String) (excludeDirs includeExts : List String) : List String :=
  ["# Contextify Output\n",
   "# Generated from: " ++ absPath ++ "\n",
   "# Excluded directories: " ++ String.intercalate ", " excludeDirs ++ "\n"]
  ++ (if includeExts.length > 0 then
        ["# Included extensions: " ++ String.intercalate ", " includeExts ++ "\n"]
      else [])
  ++ ["\n"]

/-- Model of `bufio`'s `dropCR`: remove one trailing carriage return. -/
def dropCR (l : List Char) : List Char :=
  if l.getLast? = some '\x0d' then l.dropLast else l

/-- Accumulating core of `bufio.ScanLines`: `acc` holds the reversed
characters of the current partial line; a `\n` emits the line (with a
trailing CR dropped), and end of input emits remaining data only when
non-empty. -/
def scanLinesAux (acc : List Char) : List Char → List (List Char)
  | [] => if acc = [] then [] else [dropCR acc.reverse]
  | c :: rest =>
    if c = '\n' then dropCR acc.reverse :: scanLinesAux [] rest
    else scanLinesAux (c :: acc) rest

/-- Lines produced by a `bufio.Scanner` with the default `ScanLines` split
function over the given content. -/
def scanLines (content : List Char) : List (List Char) :=
  scanLinesAux [] content

/-- Model of `processFile` (src/main.go:228) on a file whose open and reads
succeed: the exact text it writes for one file, namely a `## File:` header
line, an opening fence, every scanned line followed by one newline, and a
closing fence followed by a blank line. -/
def processFile (relPath : String) (content : String) : String :=
  "## File: " ++ relPath ++ "\n" ++ "```\n"
  ++ String.join ((scanLines content.data).map (fun l => String.mk l ++ "\n"))
  ++ "```\n\n"

/-- Line terminator of one logical line in a text file: LF, CRLF, or no
terminator (possible only for the last line, at end of file). -/
inductive LineTerm where
  | lf
  | crlf
  | eofNoNl
deriving DecidableEq

/-- Bytes of a line terminator. -/
def LineTerm.chars : LineTerm → List Char
  | .lf => ['\n']
  | .crlf => ['\x0d', '\n']
  | .eofNoNl => []

/-- Raw file content assembled from logical lines, each followed by its
terminator. -/
def encodeLines : List (List Char × LineTerm) → List Char
  | [] => []
  | (l, t) :: rest => l ++ t.chars ++ encodeLines rest

/-- A logical line is plain when it contains no LF and does not end in CR. -/
def lineOk (l : List Char) : Bool :=
  decide ('\n' ∉ l) && decide (l.getLast? ≠ some '\x0d')

/-- Well-formed logical-line decomposition of a text file: every line is
plain, only the final line may lack a terminator, and a terminator-less
final line is non-empty. -/
def wfLines : List (List Char × LineTerm) → Bool
  | [] => true
  | [(l, t)] => lineOk l && (decide (t ≠ LineTerm.eofNoNl) || decide (l ≠ []))
  | (l, t) :: rest => lineOk l && decide (t ≠ LineTerm.eofNoNl) && wfLines rest

/-- Node of a filesystem tree.  The `readable` flag on a file models whether
`os.Open`/reads on it succeed; the `listable` flag on a directory models
whether `os.ReadDir` on it succeeds. -/
inductive FSNode where
  | file (name : String) (content : String) (readable : Bool)
  | dir (name : String) (listable : Bool) (children : List FSNode)

/-- Name of a node (its final path element). -/
def nodeName : FSNode → String
  | .file n _ _ => n
  | .dir n _ _ => n

/-- Path of a child entry, as `filepath.WalkDir` forms it. -/
def childPath (path name : String) : String := path ++ "/" ++ name

/-- Relative path of a child entry, as `filepath.Rel` computes it from the
walk root (the root itself has relative path "."). -/
def childRel (rel name : String) : String :=
  if rel = "." then name else rel ++ "/" ++ name

/-- Observable outcome of walking a subtree: the relative paths of every
node the `WalkDir` callback was invoked on, the rendered section written for
every transcribed file (in order), the number of successfully transcribed
files, and the first error if the walk aborted. -/
structure WalkOut where
  visited : List String
  secs : List String
  count : Nat
  err : Option String
deriving DecidableEq

mutual
/-- Model of the `filepath.WalkDir` callback of `processDirectory`
(src/main.go:134-170) on one node: an excluded directory is skipped whole
(`filepath.SkipDir`), an unlistable directory aborts with the access error,
a file is transcribed when its extension is included and it is readable,
skipped when not included, and aborts the walk when included but unreadable. -/
def walkNode (cfg : List String × List String) (path rel : String) : FSNode → WalkOut
  | .file _ content readable =>
    if shouldIncludeFile path cfg.2 = false then ⟨[rel], [], 0, none⟩
    else if readable then ⟨[rel], [processFile rel content], 1, none⟩
    else ⟨[rel], [], 0, some ("failed to open file " ++ path)⟩
  | .dir _ listable children =>
    if shouldExcludeDir rel cfg.1 then ⟨[rel], [], 0, none⟩
    else if listable then
      let r := walkList cfg path rel children
      ⟨rel :: r.visited, r.secs, r.count, r.err⟩
    else ⟨[rel], [], 0, some ("error accessing path " ++ path)⟩

/-- Walk the children of a directory in order, stopping at the first child
whose walk reports an error. -/
def walkList (cfg : List String × List String) (path rel : String) : List FSNode → WalkOut
  | [] => ⟨[], [], 0, none⟩
  | c :: cs =>
    let r := walkNode cfg (childPath path (nodeName c)) (childRel rel (nodeName c)) c
    match r.err with
    | some _ => r
    | none =>
      let r2 := walkList cfg path rel cs
      ⟨r.visited ++ r2.visited, r.secs ++ r2.secs, r.count + r2.count, r2.err⟩
end

mutual
/-- Every file in the subtree is readable and every directory listable. -/
def allReadable : FSNode → Bool
  | .file _ _ r => r
  | .dir _ l cs => l && allReadableList cs

/-- List version of `allReadable`. -/
def allReadableList : List FSNode → Bool
  | [] => true
  | c :: cs => allReadable c && allReadableList cs
end

/-- Modelled from the spec (PathMatcher contract): a relative path is
excluded when any path segment matches an entry of the exclusion set, or the
full relative path matches an entry verbatim. -/
def specExcluded (rel : String) (excludeDirs : List String) : Bool :=
  (splitChar '/' rel.data).any (fun seg => excludeDirs.contains (String.mk seg))
  || excludeDirs.contains rel

/-- Modelled from the spec (PathMatcher contract): a file is included when
the inclusion set is empty or its extension is a member of the set. -/
def specIncluded (path : String) (includeExts : List String) : Bool :=
  includeExts.isEmpty || includeExts.contains (filepathExt path)

mutual
/-- Modelled from the spec (testable properties): the pre-order list of
`(relative path, content)` of files that must appear in the output, namely
the files that are not inside an excluded directory and whose extension
passes the inclusion filter. -/
def specFiles (excl incl : List String) (path rel : String) : FSNode → List (String × String)
  | .file _ content _ => if specIncluded path incl then [(rel, content)] else []
  | .dir _ _ children =>
    if specExcluded rel excl then []
    else specFilesList excl incl path rel children

/-- List version of `specFiles`: children contribute in order. -/
def specFilesList (excl incl : List String) (path rel : String) : List FSNode → List (String × String)
  | [] => []
  | c :: cs =>
    specFiles excl incl (childPath path (nodeName c)) (childRel rel (nodeName c)) c
    ++ specFilesList excl incl path rel cs
end

mutual
/-- Modelled from the spec (TreeWalker contract): the pre-order list of
relative paths the walker visits; an excluded directory is itself visited
but none of its descendants are. -/
def specVisited (excl : List String) (rel : String) : FSNode → List String
  | .file _ _ _ => [rel]
  | .dir _ _ children =>
    if specExcluded rel excl then [rel]
    else rel :: specVisitedList excl rel children

/-- List version of `specVisited`. -/
def specVisitedList (excl : List String) (rel : String) : List FSNode → List String
  | [] => []
  | c :: cs =>
    specVisited excl (childRel rel (nodeName c)) c ++ specVisitedList excl rel cs
end

/-- Whether the buffered-writer flush and the output-file close fail at the
end of a run (src/main.go:114-125). -/
structure StreamEnv where
  flushFails : Bool
  closeFails : Bool
deriving DecidableEq

/-- Diagnostic message logged by the deferred flush handler
(src/main.go:122-124). -/
def flushErrMsg : String := "Failed to flush writer"

/-- Diagnostic message logged by the deferred close handler
(src/main.go:115-117). -/
def closeErrMsg : String := "Failed to close output file"

/-- Observable outcome of one `processDirectory` run: the bytes written to
the output stream, the final value of the `fileCount` counter, the error
value returned to `main` (`none` = success), and the diagnostics logged by
the deferred flush/close handlers, in execution order. -/
structure RunResult where
  output : String
  count : Nat
  returned : Option String
  warnings : List String
deriving DecidableEq

/-- Model of `processDirectory` (src/main.go:98-178): write the run header,
walk the tree from the root (relative path "."), return the first walk error
or success.  The deferred flush/close handlers only log; they never change
the returned value. -/
def processDirectory (cfg : List String × List String) (absPath : String)
    (env : StreamEnv) (root : FSNode) : RunResult :=
  let hdr := String.join (writeHeader absPath cfg.1 cfg.2)
  let w := walkNode cfg absPath "." root
  { output := hdr ++ String.join w.secs
    count := w.count
    returned := w.err
    warnings := (if env.flushFails then [flushErrMsg] else [])
      ++ (if env.closeFails then [closeErrMsg] else []) }

/-- Insert a node into a name-sorted list of nodes (ascending, as
`os.ReadDir` sorts directory entries). -/
def insertByName (x : FSNode) : List FSNode → List FSNode
  | [] => [x]
  | y :: ys => if nodeName x ≤ nodeName y then x :: y :: ys else y :: insertByName x ys

mutual
/-- Sort every children list of the tree by name, modelling the sorted
directory listing `filepath.WalkDir` traverses regardless of the order the
operating system returns raw entries in. -/
def sortTree : FSNode → FSNode
  | .file n c r => .file n c r
  | .dir n l cs => .dir n l (sortForest cs)

/-- Insertion sort of a forest by node name, sorting each subtree as well. -/
def sortForest : List FSNode → List FSNode
  | [] => []
  | c :: cs => insertByName (sortTree c) (sortForest cs)
end

mutual
/-- Sibling names are pairwise distinct throughout the tree, as they are in
a real directory tree. -/
def nodupTree : FSNode → Bool
  | .file _ _ _ => true
  | .dir _ _ cs => nodupForest cs

/-- List version of `nodupTree`. -/
def nodupForest : List FSNode → Bool
  | [] => true
  | c :: cs =>
    cs.all (fun d => decide (nodeName d ≠ nodeName c)) && nodupTree c && nodupForest cs
end

mutual
/-- Two trees describe the same directory contents: identical files, and
directories that agree up to the order in which the operating system lists
their children. -/
inductive TreePerm : FSNode → FSNode → Prop where
  | file (n c r) : TreePerm (.file n c r) (.file n c r)
  | dir (n l) {cs cs'} : ForestPerm cs cs' → TreePerm (.dir n l cs) (.dir n l cs')

/-- Permutation of forests whose corresponding elements are `TreePerm`
related, presented insertion-style: the head of the left forest may land
anywhere in the right forest. -/
inductive ForestPerm : List FSNode → List FSNode → Prop where
  | nil : ForestPerm [] []
  | consMid {t t' : FSNode} {cs l1 l2 : List FSNode} :
      TreePerm t t' → ForestPerm cs (l1 ++ l2) → ForestPerm (t :: cs) (l1 ++ t' :: l2)
end

theorem stringMk_data (s : String) : String.mk s.data = s := by
  cases s
  rfl

theorem contains_iff_mem {l : List String} {a : String} : l.contains a = true ↔ a ∈ l :=
  List.elem_iff

theorem extAux_of_no_dot :
    ∀ (rcs : List Char) (acc : List Char), '.' ∉ lastElemRev rcs → extAux acc rcs = []
  | [], _, _ => rfl
  | c :: cs, acc, h => by
    by_cases hc : c = '/'
    · simp [extAux, hc]
    · have h' : '.' ∉ c :: lastElemRev cs := by
        simpa [lastElemRev, hc] using h
      have hcd : c ≠ '.' := by
        intro hdot
        exact h' (hdot ▸ List.mem_cons_self c (lastElemRev cs))
      have htl : '.' ∉ lastElemRev cs := fun hm => h' (List.mem_cons_of_mem c hm)
      simp only [extAux, if_neg hc, if_neg hcd]
      exact extAux_of_no_dot cs (c :: acc) htl

theorem extAux_of_dot :
    ∀ (rcs : List Char) (l acc : List Char), lastElemRev rcs = l ++ ['.'] → '.' ∉ l →
      extAux acc rcs = '.' :: (l.reverse ++ acc)
  | [], l, _, h, _ => by simp [lastElemRev] at h
  | c :: cs, l, acc, h, hdot => by
    by_cases hc : c = '/'
    · simp [lastElemRev, hc] at h
    · rw [lastElemRev, if_neg hc] at h
      cases l with
      | nil =>
        have hcd : c = '.' := by simpa using congrArg (fun xs => List.head? xs) h
        simp [extAux, if_neg hc, hcd]
      | cons a l' =>
        have hca : c = a := by simpa using congrArg (fun xs => List.head? xs) h
        have htl : lastElemRev cs = l' ++ ['.'] := by
          simpa [hca] using congrArg (fun xs => List.tail xs) h
        have hdl : '.' ∉ l' := fun hm => hdot (List.mem_cons_of_mem a hm)
        have hcd : c ≠ '.' := by
          intro hEq
          exact hdot (by simp [hca.symm, hEq])
        rw [extAux, if_neg hc, if_neg (by simpa using hcd)]
        rw [extAux_of_dot cs l' (c :: acc) htl hdl]
        simp [hca]

theorem filepathExt_of_no_dot (p : String) (h : '.' ∉ (fileName p).data) :
    filepathExt p = "" := by
  have hrev : '.' ∉ lastElemRev p.data.reverse := by
    intro hm
    exact h (by simpa [fileName] using List.mem_reverse.mpr hm)
  simp [filepathExt, extAux_of_no_dot p.data.reverse [] hrev]

theorem filepathExt_of_dotfile (p : String) (tail : List Char)
    (hname : (fileName p).data = '.' :: tail) (hdot : '.' ∉ tail) :
    filepathExt p = fileName p := by
  have hlast : lastElemRev p.data.reverse = tail.reverse ++ ['.'] := by
    have : (lastElemRev p.data.reverse).reverse = '.' :: tail := hname
    calc lastElemRev p.data.reverse
        = (lastElemRev p.data.reverse).reverse.reverse := by simp
      _ = tail.reverse ++ ['.'] := by rw [this]; simp
  have hrev : '.' ∉ tail.reverse := fun hm => hdot (List.mem_reverse.mp hm)
  have hext : extAux [] p.data.reverse = '.' :: tail := by
    simpa using extAux_of_dot p.data.reverse tail.reverse [] hlast hrev
  calc filepathExt p = String.mk ('.' :: tail) := by simp [filepathExt, hext]
    _ = String.mk (fileName p).data := by rw [hname]
    _ = fileName p := stringMk_data _

/-- C3: `shouldExcludeDir` returns true exactly when some `/`-segment of the
relative path is in the exclusion set or the whole relative path is in the
set (exact string equality in both cases), and it returns false on the empty
exclusion set. -/
theorem shouldExcludeDir_spec (rp : String) (E : List String) :
    (shouldExcludeDir rp E = true ↔
      ((∃ seg ∈ splitChar '/' rp.data, String.mk seg ∈ E) ∨ rp ∈ E))
    ∧ shouldExcludeDir rp [] = false := by
  constructor
  · rcases hE : E with _ | ⟨e, E'⟩
    · simp [shouldExcludeDir]
    · rw [shouldExcludeDir]
      simp only [List.isEmpty_cons, if_false, Bool.false_eq_true]
      by_cases hany : (splitChar '/' rp.data).any
          (fun part => (e :: E').contains (String.mk part)) = true
      · rw [if_pos hany]
        simp only [true_iff]
        left
        obtain ⟨seg, hseg, hmem⟩ := List.any_eq_true.mp hany
        exact ⟨seg, hseg, contains_iff_mem.mp hmem⟩
      · rw [if_neg hany]
        rw [contains_iff_mem]
        constructor
        · exact fun h => Or.inr h
        · rintro (⟨seg, hseg, hmem⟩ | h)
          · exact absurd (List.any_eq_true.mpr ⟨seg, hseg, contains_iff_mem.mpr hmem⟩) hany
          · exact h
  · simp [shouldExcludeDir]

/-- C4 (counterexample): for the inclusion set containing only the empty
string — non-empty as a set — the dotless file name "README" does match,
because `filepath.Ext` returns "" for it and "" is a member; so "a file name
containing no dot never matches a non-empty inclusion set" is false as
stated over all inclusion sets. -/
theorem shouldIncludeFile_noDot_cex :
    ('.' ∉ (fileName "README").data) ∧ ([""] ≠ ([] : List String)) ∧
      shouldIncludeFile "README" [""] = true := by
  decide

/-- C4 (amended): `shouldIncludeFile` is true unconditionally on the empty
inclusion set, and otherwise true exactly when the `filepath.Ext` extension
is a member; a file name containing no dot never matches a non-empty
inclusion set that does not contain the empty string (the flag parser
`parseCommaSeparated` never produces an empty-string entry). -/
theorem shouldIncludeFile_spec (p : String) (I : List String) :
    (I = [] → shouldIncludeFile p I = true)
    ∧ (shouldIncludeFile p I = true ↔ (I = [] ∨ filepathExt p ∈ I))
    ∧ ('.' ∉ (fileName p).data → "" ∉ I → I ≠ [] → shouldIncludeFile p I = false) := by
  refine ⟨?_, ?_, ?_⟩
  · intro hI
    simp [shouldIncludeFile, hI]
  · rcases I with _ | ⟨e, I'⟩
    · simp [shouldIncludeFile]
    · simp [shouldIncludeFile, contains_iff_mem]
  · intro hdot hnil hne
    rcases I with _ | ⟨e, I'⟩
    · exact absurd rfl hne
    · rw [Bool.eq_false_iff]
      intro htrue
      simp only [shouldIncludeFile, List.isEmpty_cons, Bool.false_eq_true, if_false,
        filepathExt_of_no_dot p hdot] at htrue
      exact hnil (contains_iff_mem.mp htrue)

/-- C4 (witness): the amended theorem applied at concrete inputs — a dotless
file name is rejected by the inclusion set `[".go"]`, and everything is
accepted by the empty inclusion set. -/
theorem shouldIncludeFile_spec_witness :
    shouldIncludeFile "/r/Makefile" [".go"] = false ∧
      shouldIncludeFile "/r/a.go" [] = true :=
  ⟨(shouldIncludeFile_spec "/r/Makefile" [".go"]).2.2 (by decide) (by decide) (by decide),
   (shouldIncludeFile_spec "/r/a.go" []).1 rfl⟩

/-- C10: a file whose name starts with a dot and has no other dot (such as
".gitignore") has its entire name as its `filepath.Ext` extension, so with a
non-empty inclusion set it is included exactly when the full name is a
member of the set. -/
theorem shouldIncludeFile_dotfile (p : String) (I : List String) (tail : List Char)
    (hname : (fileName p).data = '.' :: tail) (hdot : '.' ∉ tail) (hne : I ≠ []) :
    shouldIncludeFile p I = true ↔ fileName p ∈ I := by
  rcases I with _ | ⟨e, I'⟩
  · exact absurd rfl hne
  · simp only [shouldIncludeFile, List.isEmpty_cons, Bool.false_eq_true, if_false,
      filepathExt_of_dotfile p tail hname hdot]
    exact contains_iff_mem

/-- C10 (witness): ".gitignore" is included exactly when the inclusion set
contains the full name ".gitignore". -/
theorem shouldIncludeFile_dotfile_witness :
    shouldIncludeFile "/r/.gitignore" [".gitignore"] = true :=
  (shouldIncludeFile_dotfile "/r/.gitignore" [".gitignore"] "gitignore".data
    (by decide) (by decide) (by decide)).mpr (by decide)

/-- C5: the exclusion list of every run contains ".git" even when the user
did not supply it; when the user did supply it the list is unchanged (no
duplicate added); and the run header reports exactly this list on its
excluded-directories line. -/
theorem gitAlwaysExcluded (u absPath exts : String) :
    ".git" ∈ runExcludeList u
    ∧ (".git" ∈ parseCommaSeparated u → runExcludeList u = parseCommaSeparated u)
    ∧ ("# Excluded directories: " ++ String.intercalate ", " (runExcludeList u) ++ "\n")
        ∈ writeHeader absPath (runExcludeList u) (parseCommaSeparated exts) := by
  refine ⟨?_, ?_, ?_⟩
  · rw [runExcludeList, ensureGitExcluded]
    by_cases h : (parseCommaSeparated u).contains ".git" = true
    · rw [if_pos h]
      exact contains_iff_mem.mp h
    · rw [if_neg h]
      exact List.mem_append_right _ (List.mem_singleton.mpr rfl)
  · intro hmem
    rw [runExcludeList, ensureGitExcluded, if_pos (contains_iff_mem.mpr hmem)]
  · simp [writeHeader]

/-- C5 (witness): with `--exclude node_modules` the run's exclusion list
contains ".git", and with `--exclude .git` the list is exactly the parsed
user list, so ".git" is not duplicated. -/
theorem gitAlwaysExcluded_witness :
    ".git" ∈ runExcludeList "node_modules" ∧
      runExcludeList ".git" = parseCommaSeparated ".git" :=
  ⟨(gitAlwaysExcluded "node_modules" "/r" "").1,
   (gitAlwaysExcluded ".git" "/r" "").2.1 (by decide)⟩

theorem dropCR_no_cr (l : List Char) (h : l.getLast? ≠ some '\x0d') : dropCR l = l :=
  if_neg h

theorem dropCR_concat_cr (l : List Char) : dropCR (l ++ ['\x0d']) = l := by
  rw [dropCR, if_pos (List.getLast?_concat l)]
  exact List.dropLast_concat

theorem scanLinesAux_append :
    ∀ (l acc rest : List Char), '\n' ∉ l →
      scanLinesAux acc (l ++ rest) = scanLinesAux (l.reverse ++ acc) rest
  | [], acc, rest, _ => by simp
  | c :: cs, acc, rest, h => by
    have hc : c ≠ '\n' := fun hEq => h (by simp [hEq])
    have htl : '\n' ∉ cs := fun hm => h (List.mem_cons_of_mem c hm)
    show (if c = '\n' then dropCR acc.reverse :: scanLinesAux [] (cs ++ rest)
          else scanLinesAux (c :: acc) (cs ++ rest)) = _
    rw [if_neg hc, scanLinesAux_append cs (c :: acc) rest htl]
    simp

theorem scanLinesAux_line_lf (l rest : List Char) (hnl : '\n' ∉ l)
    (hcr : l.getLast? ≠ some '\x0d') :
    scanLinesAux [] (l ++ '\n' :: rest) = l :: scanLinesAux [] rest := by
  rw [scanLinesAux_append l [] ('\n' :: rest) hnl]
  simp [scanLinesAux, dropCR_no_cr l hcr]

theorem scanLinesAux_line_crlf (l rest : List Char) (hnl : '\n' ∉ l) :
    scanLinesAux [] (l ++ '\x0d' :: '\n' :: rest) = l :: scanLinesAux [] rest := by
  have hsplit : l ++ '\x0d' :: '\n' :: rest = (l ++ ['\x0d']) ++ '\n' :: rest := by simp
  have hnl' : '\n' ∉ l ++ ['\x0d'] := by
    intro hm
    rcases List.mem_append.mp hm with h1 | h2
    · exact hnl h1
    · simp at h2
  rw [hsplit, scanLinesAux_append (l ++ ['\x0d']) [] ('\n' :: rest) hnl']
  simp [scanLinesAux, dropCR_concat_cr]

theorem scanLinesAux_last_noNl (l : List Char) (hnl : '\n' ∉ l)
    (hcr : l.getLast? ≠ some '\x0d') (hne : l ≠ []) :
    scanLinesAux [] l = [l] := by
  have h0 : scanLinesAux [] (l ++ []) = scanLinesAux (l.reverse ++ []) [] :=
    scanLinesAux_append l [] [] hnl
  simp only [List.append_nil] at h0
  rw [h0, scanLinesAux]
  rw [if_neg (by simpa using hne)]
  simp [dropCR_no_cr l hcr]

theorem encodeLines_cons (l : List Char) (t : LineTerm)
    (rest : List (List Char × LineTerm)) :
    encodeLines ((l, t) :: rest) = l ++ (t.chars ++ encodeLines rest) := by
  rw [encodeLines, List.append_assoc]

theorem scanLines_encode :
    ∀ ps : List (List Char × LineTerm), wfLines ps = true →
      scanLines (encodeLines ps) = ps.map Prod.fst
  | [], _ => rfl
  | [(l, t)], h => by
    simp only [wfLines, lineOk, Bool.and_eq_true, Bool.or_eq_true, decide_eq_true_eq] at h
    obtain ⟨⟨hnl, hcr⟩, hlast⟩ := h
    cases t with
    | lf =>
      have key := scanLinesAux_line_lf l [] hnl hcr
      simp only [scanLines, encodeLines, LineTerm.chars, List.append_assoc,
        List.singleton_append, List.append_nil, List.map_cons, List.map_nil]
      rw [key]
      rfl
    | crlf =>
      have key := scanLinesAux_line_crlf l [] hnl
      simp only [scanLines, encodeLines, LineTerm.chars, List.append_assoc,
        List.cons_append, List.nil_append, List.append_nil, List.map_cons, List.map_nil]
      rw [key]
      rfl
    | eofNoNl =>
      have hne : l ≠ [] := by
        rcases hlast with h1 | h2
        · exact absurd rfl h1
        · exact h2
      simp only [scanLines, encodeLines, LineTerm.chars, List.append_nil, List.map_cons,
        List.map_nil]
      exact scanLinesAux_last_noNl l hnl hcr hne
  | (l, t) :: p :: rest, h => by
    simp only [wfLines, lineOk, Bool.and_eq_true, decide_eq_true_eq] at h
    obtain ⟨⟨⟨hnl, hcr⟩, hterm⟩, hrest⟩ := h
    have ih := scanLines_encode (p :: rest) hrest
    rw [scanLines] at ih
    cases t with
    | lf =>
      rw [scanLines, encodeLines_cons]
      show scanLinesAux [] (l ++ '\n' :: encodeLines (p :: rest)) = _
      rw [scanLinesAux_line_lf l (encodeLines (p :: rest)) hnl hcr, ih]
      simp
    | crlf =>
      rw [scanLines, encodeLines_cons]
      show scanLinesAux [] (l ++ '\x0d' :: '\n' :: encodeLines (p :: rest)) = _
      rw [scanLinesAux_line_crlf l (encodeLines (p :: rest)) hnl, ih]
      simp
    | eofNoNl => exact absurd rfl hterm

/-- C2: transcribing a text file assembled from plain logical lines with LF
or CRLF terminators (the final line possibly unterminated) writes exactly a
`## File:` header line, an opening fence, every logical line followed by a
single newline — so line terminators are normalized to newline-only and a
file without a trailing newline still ends with exactly one newline — and a
closing fence followed by a blank line. -/
theorem processFile_format (relPath : String) (ps : List (List Char × LineTerm))
    (h : wfLines ps = true) :
    processFile relPath (String.mk (encodeLines ps)) =
      "## File: " ++ relPath ++ "\n" ++ "```\n"
      ++ String.join (ps.map (fun p => String.mk p.1 ++ "\n"))
      ++ "```\n\n" := by
  rw [processFile]
  have hdata : (String.mk (encodeLines ps)).data = encodeLines ps := rfl
  rw [hdata, scanLines_encode ps h, List.map_map]
  rfl

/-- C2 (witness): a two-line file whose first line ends in CRLF and whose
second line has no trailing newline is transcribed with both terminators
normalized to a single newline each. -/
theorem processFile_format_witness :
    wfLines [("hello".data, LineTerm.crlf), ("world".data, LineTerm.eofNoNl)] = true ∧
      processFile "a.txt"
        (String.mk (encodeLines
          [("hello".data, LineTerm.crlf), ("world".data, LineTerm.eofNoNl)])) =
      "## File: a.txt" ++ "\n" ++ "```\n"
      ++ String.join ([("hello".data, LineTerm.crlf),
          ("world".data, LineTerm.eofNoNl)].map (fun p => String.mk p.1 ++ "\n"))
      ++ "```\n\n" :=
  ⟨by decide, by
    have := processFile_format "a.txt"
      [("hello".data, LineTerm.crlf), ("world".data, LineTerm.eofNoNl)] (by decide)
    simpa using this⟩

theorem shouldExcludeDir_eq_specExcluded (rp : String) (E : List String) :
    shouldExcludeDir rp E = specExcluded rp E := by
  rcases E with _ | ⟨e, E'⟩
  · show false = specExcluded rp []
    symm
    rw [Bool.eq_false_iff]
    intro h
    rw [specExcluded, Bool.or_eq_true, List.any_eq_true] at h
    rcases h with ⟨seg, _, hm⟩ | hm
    · exact absurd (contains_iff_mem.mp hm) (List.not_mem_nil _)
    · exact absurd (contains_iff_mem.mp hm) (List.not_mem_nil _)
  · rw [shouldExcludeDir, specExcluded]
    simp only [List.isEmpty_cons, Bool.false_eq_true, if_false]
    by_cases hany : (splitChar '/' rp.data).any
        (fun part => (e :: E').contains (String.mk part)) = true
    · rw [if_pos hany, hany, Bool.true_or]
    · rw [if_neg hany, Bool.not_eq_true] at *
      rw [hany, Bool.false_or]

theorem shouldIncludeFile_eq_specIncluded (p : String) (I : List String) :
    shouldIncludeFile p I = specIncluded p I := by
  rcases I with _ | ⟨e, I'⟩
  · rfl
  · rfl

mutual
theorem walkNode_spec (cfg : List String × List String) (path rel : String) :
    ∀ (t : FSNode), allReadable t = true →
      walkNode cfg path rel t =
        ⟨specVisited cfg.1 rel t,
         (specFiles cfg.1 cfg.2 path rel t).map (fun f => processFile f.1 f.2),
         (specFiles cfg.1 cfg.2 path rel t).length, none⟩
  | .file n content r, h => by
    have hr : r = true := by simpa [allReadable] using h
    subst hr
    by_cases hinc : shouldIncludeFile path cfg.2 = true
    · rw [walkNode, if_neg (by rw [hinc]; exact fun hcontra => by cases hcontra), if_pos rfl]
      rw [shouldIncludeFile_eq_specIncluded] at hinc
      simp [specVisited, specFiles, hinc]
    · rw [Bool.not_eq_true] at hinc
      rw [walkNode, if_pos hinc]
      rw [shouldIncludeFile_eq_specIncluded] at hinc
      simp [specVisited, specFiles, hinc]
  | .dir n l cs, h => by
    rw [allReadable, Bool.and_eq_true] at h
    obtain ⟨hl, hcs⟩ := h
    subst hl
    by_cases hex : shouldExcludeDir rel cfg.1 = true
    · rw [walkNode, if_pos hex]
      rw [shouldExcludeDir_eq_specExcluded] at hex
      simp [specVisited, specFiles, hex]
    · rw [walkNode, if_neg hex, if_pos rfl, walkList_spec cfg path rel cs hcs]
      rw [Bool.not_eq_true] at hex
      rw [shouldExcludeDir_eq_specExcluded] at hex
      simp [specVisited, specFiles, hex]

theorem walkList_spec (cfg : List String × List String) (path rel : String) :
    ∀ (cs : List FSNode), allReadableList cs = true →
      walkList cfg path rel cs =
        ⟨specVisitedList cfg.1 rel cs,
         (specFilesList cfg.1 cfg.2 path rel cs).map (fun f => processFile f.1 f.2),
         (specFilesList cfg.1 cfg.2 path rel cs).length, none⟩
  | [], _ => rfl
  | c :: cs, h => by
    rw [allReadableList, Bool.and_eq_true] at h
    obtain ⟨h1, h2⟩ := h
    rw [walkList,
      walkNode_spec cfg (childPath path (nodeName c)) (childRel rel (nodeName c)) c h1,
      walkList_spec cfg path rel cs h2]
    simp [specVisitedList, specFilesList, List.map_append]
end

/-- C1: on a fully readable tree the walk succeeds and its observable
behaviour equals the specification filter: the visited relative paths are
exactly the pre-order paths with every excluded directory's descendants cut
off (the excluded directory itself is visited, nothing below it), and the
transcribed sections are exactly one rendered section per file that is not
below an excluded directory and passes the extension inclusion filter, in
pre-order, with the reported count their number. -/
theorem walk_matches_filter (cfg : List String × List String) (path rel : String)
    (t : FSNode) (h : allReadable t = true) :
    walkNode cfg path rel t =
      ⟨specVisited cfg.1 rel t,
       (specFiles cfg.1 cfg.2 path rel t).map (fun f => processFile f.1 f.2),
       (specFiles cfg.1 cfg.2 path rel t).length, none⟩ :=
  walkNode_spec cfg path rel t h

/-- C1 (witness): the spec's end-to-end tree `root/{a.go, b.txt, sub/c.go,
node_modules/ignored.go}` with `--exclude node_modules --extensions .go`
yields sections for `a.go` and `sub/c.go` only, in that order. -/
theorem walk_matches_filter_witness :
    allReadable (FSNode.dir "root" true
      [.file "a.go" "package a" true, .file "b.txt" "b" true,
       .dir "sub" true [.file "c.go" "c" true],
       .dir "node_modules" true [.file "ignored.go" "x" true]]) = true ∧
    walkNode (["node_modules", ".git"], [".go"]) "/r" "."
      (FSNode.dir "root" true
        [.file "a.go" "package a" true, .file "b.txt" "b" true,
         .dir "sub" true [.file "c.go" "c" true],
         .dir "node_modules" true [.file "ignored.go" "x" true]]) =
      ⟨[".", "a.go", "b.txt", "sub", "sub/c.go", "node_modules"],
       [processFile "a.go" "package a", processFile "sub/c.go" "c"], 2, none⟩ := by
  constructor
  · decide
  · rw [walk_matches_filter (["node_modules", ".git"], [".go"]) "/r" "." _ (by decide)]
    decide

theorem walkList_single_err (cfg : List String × List String) (path rel : String)
    (y : FSNode) (e : String)
    (hy : (walkNode cfg (childPath path (nodeName y)) (childRel rel (nodeName y)) y).err
      = some e) :
    walkList cfg path rel [y] =
      walkNode cfg (childPath path (nodeName y)) (childRel rel (nodeName y)) y := by
  rw [walkList]
  simp [hy]

theorem walkList_append_ok (cfg : List String × List String) (path rel : String) :
    ∀ (l1 l2 : List FSNode), (walkList cfg path rel l1).err = none →
      walkList cfg path rel (l1 ++ l2) =
        ⟨(walkList cfg path rel l1).visited ++ (walkList cfg path rel l2).visited,
         (walkList cfg path rel l1).secs ++ (walkList cfg path rel l2).secs,
         (walkList cfg path rel l1).count + (walkList cfg path rel l2).count,
         (walkList cfg path rel l2).err⟩
  | [], l2, _ => by simp [walkList]
  | c :: cs, l2, h => by
    cases hc : (walkNode cfg (childPath path (nodeName c)) (childRel rel (nodeName c)) c).err
      with
    | some e =>
      rw [walkList] at h
      simp [hc] at h
    | none =>
      have hcs : (walkList cfg path rel cs).err = none := by
        rw [walkList] at h
        simpa [hc] using h
      rw [List.cons_append, walkList, walkList]
      simp [hc, walkList_append_ok cfg path rel cs l2 hcs, hcs, List.append_assoc,
        Nat.add_assoc]

theorem walkList_append_err (cfg : List String × List String) (path rel : String) :
    ∀ (l1 l2 : List FSNode), (walkList cfg path rel l1).err ≠ none →
      walkList cfg path rel (l1 ++ l2) = walkList cfg path rel l1
  | [], _, h => absurd rfl h
  | c :: cs, l2, h => by
    cases hc : (walkNode cfg (childPath path (nodeName c)) (childRel rel (nodeName c)) c).err
      with
    | some e =>
      rw [List.cons_append, walkList, walkList]
      simp [hc]
    | none =>
      have hcs : (walkList cfg path rel cs).err ≠ none := by
        rw [walkList] at h
        simpa [hc] using h
      rw [List.cons_append, walkList, walkList]
      simp [hc, walkList_append_err cfg path rel cs l2 hcs]

/-- C6: when every sibling before `y` walks without error and the walk of
`y` itself fails (an unlistable directory, or an included file that cannot
be opened), the walk of the whole children list reports exactly `y`'s
error, its result does not depend on the siblings after `y` in any way (so
nothing after the failing node is visited or transcribed), the transcribed
sections are exactly those from before the failure plus those `y` produced
before failing, and `processDirectory` returns the walk's error verbatim to
its caller. -/
theorem walk_aborts_on_error (cfg : List String × List String) (path rel : String)
    (pre : List FSNode) (y : FSNode) (post post' : List FSNode) (e : String)
    (hpre : (walkList cfg path rel pre).err = none)
    (hy : (walkNode cfg (childPath path (nodeName y)) (childRel rel (nodeName y)) y).err
      = some e) :
    (walkList cfg path rel (pre ++ y :: post)).err = some e
    ∧ walkList cfg path rel (pre ++ y :: post) = walkList cfg path rel (pre ++ y :: post')
    ∧ (walkList cfg path rel (pre ++ y :: post)).secs =
        (walkList cfg path rel pre).secs ++
          (walkNode cfg (childPath path (nodeName y)) (childRel rel (nodeName y)) y).secs
    ∧ ∀ (cfg' : List String × List String) (p' : String) (env : StreamEnv) (t : FSNode),
        (processDirectory cfg' p' env t).returned = (walkNode cfg' p' "." t).err := by
  have hsingle := walkList_single_err cfg path rel y e hy
  have herr1 : (walkList cfg path rel (pre ++ [y])).err = some e := by
    rw [walkList_append_ok cfg path rel pre [y] hpre, hsingle]
    exact hy
  have hstop : ∀ (zs : List FSNode),
      walkList cfg path rel (pre ++ y :: zs) = walkList cfg path rel (pre ++ [y]) := by
    intro zs
    have hsplit : pre ++ y :: zs = (pre ++ [y]) ++ zs := by simp
    rw [hsplit]
    apply walkList_append_err
    rw [herr1]
    exact Option.some_ne_none e
  refine ⟨by rw [hstop post]; exact herr1, by rw [hstop post, hstop post'], ?_, ?_⟩
  · rw [hstop post, walkList_append_ok cfg path rel pre [y] hpre, hsingle]
  · intro cfg' p' env t
    rfl

/-- C6 (witness): with no extension filter, a readable `a.go`, an unreadable
`b.go` and a readable `c.go`, the walk of the three siblings fails with the
open error of `b.go` and equals the walk that stops at `b.go`. -/
theorem walk_aborts_on_error_witness :
    (walkList ([".git"], ([] : List String)) "/r" "."
        ([.file "a.go" "x" true] ++ (FSNode.file "b.go" "" false) ::
          [.file "c.go" "z" true])).err = some "failed to open file /r/b.go"
    ∧ walkList ([".git"], ([] : List String)) "/r" "."
        ([.file "a.go" "x" true] ++ (FSNode.file "b.go" "" false) ::
          [.file "c.go" "z" true]) =
      walkList ([".git"], ([] : List String)) "/r" "."
        ([.file "a.go" "x" true] ++ (FSNode.file "b.go" "" false) :: []) := by
  have h := walk_aborts_on_error ([".git"], ([] : List String)) "/r" "."
    [.file "a.go" "x" true] (.file "b.go" "" false) [.file "c.go" "z" true] []
    "failed to open file /r/b.go" (by decide) (by decide)
  exact ⟨h.1, h.2.1⟩

/-- C7 (counterexample): a run whose traversal fails (unlistable root) while
the flush also fails returns the traversal error — not the flush failure —
to its caller, and the flush failure is still reported only as a logged
diagnostic; so "otherwise [the flush/close failure is] treated as the
primary fatal error" is false on the code. -/
theorem flushClose_cex :
    (processDirectory ([".git"], ([] : List String)) "/r" ⟨true, false⟩
        (.dir "r" false [])).returned = some ("error accessing path " ++ "/r")
    ∧ ("error accessing path " ++ "/r") ≠ flushErrMsg
    ∧ (processDirectory ([".git"], ([] : List String)) "/r" ⟨true, false⟩
        (.dir "r" false [])).warnings = [flushErrMsg] := by
  decide

/-- C7 (amended): flush/close failures never change the returned result,
the written output or the count — after a successful run the run still
succeeds with the failure only logged, and after a failed run the main
operation's error remains the error returned — and each failure is reported
exactly once as a logged diagnostic, flush first, then close. -/
theorem flushClose_semantics (cfg : List String × List String) (absPath : String)
    (env env' : StreamEnv) (t : FSNode) :
    (processDirectory cfg absPath env t).returned =
      (processDirectory cfg absPath env' t).returned
    ∧ (processDirectory cfg absPath env t).output =
        (processDirectory cfg absPath env' t).output
    ∧ (processDirectory cfg absPath env t).count =
        (processDirectory cfg absPath env' t).count
    ∧ (processDirectory cfg absPath env t).warnings =
        (if env.flushFails then [flushErrMsg] else [])
          ++ (if env.closeFails then [closeErrMsg] else []) :=
  ⟨rfl, rfl, rfl, rfl⟩

/-- C8 (counterexample): a run over an empty directory and a run that
transcribes one file return the identical value to the caller, while their
transcription counts differ — `processDirectory` returns only success or an
error, never the count, which it only logs. -/
theorem count_not_returned_cex :
    (processDirectory ([".git"], ([] : List String)) "/r" ⟨false, false⟩
        (.dir "r" true [])).returned =
      (processDirectory ([".git"], ([] : List String)) "/r" ⟨false, false⟩
        (.dir "r" true [.file "a.go" "hi" true])).returned
    ∧ (processDirectory ([".git"], ([] : List String)) "/r" ⟨false, false⟩
        (.dir "r" true [])).count ≠
      (processDirectory ([".git"], ([] : List String)) "/r" ⟨false, false⟩
        (.dir "r" true [.file "a.go" "hi" true])).count := by
  decide

mutual
theorem walkNode_count_eq (cfg : List String × List String) (path rel : String) :
    ∀ (t : FSNode), (walkNode cfg path rel t).count = (walkNode cfg path rel t).secs.length
  | .file n content r => by
    cases r <;> by_cases hinc : shouldIncludeFile path cfg.2 = false <;>
      simp [walkNode, hinc]
  | .dir n l cs => by
    by_cases hex : shouldExcludeDir rel cfg.1 = true <;> cases l <;>
      simp [walkNode, hex, walkList_count_eq cfg path rel cs]

theorem walkList_count_eq (cfg : List String × List String) (path rel : String) :
    ∀ (cs : List FSNode),
      (walkList cfg path rel cs).count = (walkList cfg path rel cs).secs.length
  | [] => rfl
  | c :: cs => by
    rw [walkList]
    cases hc : (walkNode cfg (childPath path (nodeName c)) (childRel rel (nodeName c)) c).err
      with
    | some e =>
      simpa [hc] using walkNode_count_eq cfg (childPath path (nodeName c))
        (childRel rel (nodeName c)) c
    | none =>
      simp [hc, walkNode_count_eq cfg (childPath path (nodeName c))
        (childRel rel (nodeName c)) c, walkList_count_eq cfg path rel cs, List.length_append]
end

/-- C8 (amended): `processDirectory` returns to its caller only success or
the first error; the transcription count it reports (by logging the final
`fileCount`) equals the number of file sections actually written, i.e. the
number of files whose transcription completed successfully. -/
theorem processDirectory_count (cfg : List String × List String) (absPath : String)
    (env : StreamEnv) (t : FSNode) :
    (processDirectory cfg absPath env t).count = (walkNode cfg absPath "." t).secs.length
    ∧ (processDirectory cfg absPath env t).returned = (walkNode cfg absPath "." t).err :=
  ⟨walkNode_count_eq cfg absPath "." t, rfl⟩

theorem nodeName_sortTree : ∀ t : FSNode, nodeName (sortTree t) = nodeName t
  | .file _ _ _ => rfl
  | .dir _ _ _ => rfl

theorem insertByName_comm (a b : FSNode) (h : nodeName a ≠ nodeName b) :
    ∀ s, insertByName a (insertByName b s) = insertByName b (insertByName a s)
  | [] => by
    by_cases hab : nodeName a ≤ nodeName b
    · have hba : ¬ nodeName b ≤ nodeName a := fun hx => h (le_antisymm hab hx)
      simp [insertByName, hab, hba]
    · have hba : nodeName b ≤ nodeName a := le_of_not_le hab
      simp [insertByName, hab, hba]
  | y :: ys => by
    by_cases hay : nodeName a ≤ nodeName y
    · by_cases hby : nodeName b ≤ nodeName y
      · by_cases hab : nodeName a ≤ nodeName b
        · have hba : ¬ nodeName b ≤ nodeName a := fun hx => h (le_antisymm hab hx)
          simp [insertByName, hay, hby, hab, hba]
        · have hba : nodeName b ≤ nodeName a := le_of_not_le hab
          simp [insertByName, hay, hby, hab, hba]
      · have hba : ¬ nodeName b ≤ nodeName a := fun hx => hby (le_trans hx hay)
        simp [insertByName, hay, hby, hba]
    · by_cases hby : nodeName b ≤ nodeName y
      · have hab : ¬ nodeName a ≤ nodeName b := fun hx => hay (le_trans hx hby)
        simp [insertByName, hay, hby, hab]
      · simp [insertByName, hay, hby, insertByName_comm a b h ys]

theorem treePerm_name : ∀ {t t' : FSNode}, TreePerm t t' → nodeName t = nodeName t'
  | _, _, .file _ _ _ => rfl
  | _, _, .dir _ _ _ => rfl

theorem forestPerm_names : ∀ (cs cs' : List FSNode), ForestPerm cs cs' →
    List.Perm (cs.map nodeName) (cs'.map nodeName)
  | _, _, .nil => List.Perm.nil
  | _, _, @ForestPerm.consMid t t' cs l1 l2 ht hf => by
    have ih := forestPerm_names cs (l1 ++ l2) hf
    rw [List.map_append] at ih
    rw [List.map_cons, List.map_append, List.map_cons]
    have h1 : (nodeName t :: cs.map nodeName).Perm
        (nodeName t' :: (l1.map nodeName ++ l2.map nodeName)) := by
      rw [treePerm_name ht]
      exact ih.cons _
    exact h1.trans List.perm_middle.symm

theorem nodupForest_iff : ∀ cs : List FSNode,
    nodupForest cs = true ↔ ((cs.map nodeName).Nodup ∧ ∀ t ∈ cs, nodupTree t = true)
  | [] => by simp [nodupForest]
  | c :: cs => by
    rw [nodupForest]
    simp only [Bool.and_eq_true, List.all_eq_true, decide_eq_true_eq, nodupForest_iff cs,
      List.map_cons, List.nodup_cons, List.mem_map]
    constructor
    · rintro ⟨⟨hall, hc⟩, hnodup, hmem⟩
      refine ⟨⟨fun hin => ?_, hnodup⟩, fun t ht => ?_⟩
      · obtain ⟨d, hd, hdn⟩ := hin
        exact hall d hd (hdn ▸ rfl)
      · rcases List.mem_cons.mp ht with h1 | h2
        · exact h1 ▸ hc
        · exact hmem t h2
    · rintro ⟨⟨hnin, hnodup⟩, hmem⟩
      refine ⟨⟨fun d hd hdn => hnin ⟨d, hd, hdn⟩, hmem c (List.mem_cons_self c cs)⟩,
        hnodup, fun t ht => hmem t (List.mem_cons_of_mem c ht)⟩

theorem sortForest_middle : ∀ (l1 : List FSNode) (t : FSNode) (l2 : List FSNode),
    (∀ u ∈ l1, nodeName u ≠ nodeName t) →
    sortForest (l1 ++ t :: l2) = insertByName (sortTree t) (sortForest (l1 ++ l2))
  | [], t, l2, _ => rfl
  | u :: l1, t, l2, h => by
    show insertByName (sortTree u) (sortForest (l1 ++ t :: l2)) = _
    rw [sortForest_middle l1 t l2 (fun v hv => h v (List.mem_cons_of_mem _ hv))]
    show insertByName (sortTree u) (insertByName (sortTree t) (sortForest (l1 ++ l2))) =
      insertByName (sortTree t) (insertByName (sortTree u) (sortForest (l1 ++ l2)))
    apply insertByName_comm
    rw [nodeName_sortTree, nodeName_sortTree]
    exact h u (List.mem_cons_self _ _)

mutual
theorem treePerm_refl : ∀ t : FSNode, TreePerm t t
  | .file n c r => .file n c r
  | .dir n l cs => .dir n l (forestPerm_refl cs)

theorem forestPerm_refl : ∀ cs : List FSNode, ForestPerm cs cs
  | [] => .nil
  | c :: cs => @ForestPerm.consMid c c cs [] cs (treePerm_refl c) (forestPerm_refl cs)
end

mutual
theorem treePerm_sortTree : ∀ (t t' : FSNode), TreePerm t t' → nodupTree t = true →
    sortTree t = sortTree t'
  | _, _, .file _ _ _, _ => rfl
  | _, _, @TreePerm.dir n l cs cs' hf, h => by
    show FSNode.dir n l (sortForest cs) = FSNode.dir n l (sortForest cs')
    rw [forestPerm_sortForest cs cs' hf (by simpa [nodupTree] using h)]

theorem forestPerm_sortForest : ∀ (cs cs' : List FSNode), ForestPerm cs cs' →
    nodupForest cs = true → sortForest cs = sortForest cs'
  | _, _, .nil, _ => rfl
  | _, _, @ForestPerm.consMid t t' cs l1 l2 ht hf, h => by
    have h' := (nodupForest_iff _).mp h
    have hnt : nodupTree t = true := h'.2 t (List.mem_cons_self _ _)
    have hncs : nodupForest cs = true := (nodupForest_iff _).mpr
      ⟨(List.nodup_cons.mp h'.1).2, fun u hu => h'.2 u (List.mem_cons_of_mem _ hu)⟩
    have hnames : ((t :: cs).map nodeName).Perm ((l1 ++ t' :: l2).map nodeName) :=
      forestPerm_names _ _ (ForestPerm.consMid ht hf)
    have hnodupR : ((l1 ++ t' :: l2).map nodeName).Nodup := hnames.nodup h'.1
    have hdist : ∀ u ∈ l1, nodeName u ≠ nodeName t' := by
      intro u hu hEq
      rw [List.map_append, List.map_cons] at hnodupR
      have hdisj := List.disjoint_of_nodup_append hnodupR
      exact hdisj (List.mem_map_of_mem _ hu) (by rw [hEq]; exact List.mem_cons_self _ _)
    show insertByName (sortTree t) (sortForest cs) = sortForest (l1 ++ t' :: l2)
    rw [sortForest_middle l1 t' l2 hdist]
    rw [treePerm_sortTree t t' ht hnt, forestPerm_sortForest cs (l1 ++ l2) hf hncs]
end

/-- C9: the written output is a deterministic function of the directory
contents and the configuration: two runs over trees describing the same
contents (children listed in possibly different orders by the operating
system, with sibling names distinct as in a real filesystem) walk the same
sorted listing and produce byte-identical output, whatever the flush/close
environment of either run. -/
theorem deterministic_output (cfg : List String × List String) (absPath : String)
    (env env' : StreamEnv) (t t' : FSNode) (hperm : TreePerm t t')
    (hnd : nodupTree t = true) :
    (processDirectory cfg absPath env (sortTree t)).output =
      (processDirectory cfg absPath env' (sortTree t')).output := by
  rw [treePerm_sortTree t t' hperm hnd]
  rfl

/-- C9 (witness): the same two files listed in either order, with different
flush/close environments, produce byte-identical output. -/
theorem deterministic_output_witness :
    (processDirectory ([".git"], [".go"]) "/r" ⟨false, false⟩
        (sortTree (.dir "r" true
          [.file "b.go" "1" true, .file "a.go" "2" true]))).output =
      (processDirectory ([".git"], [".go"]) "/r" ⟨true, true⟩
        (sortTree (.dir "r" true
          [.file "a.go" "2" true, .file "b.go" "1" true]))).output :=
  deterministic_output ([".git"], [".go"]) "/r" ⟨false, false⟩ ⟨true, true⟩ _ _
    (TreePerm.dir "r" true
      (@ForestPerm.consMid (.file "b.go" "1" true) (.file "b.go" "1" true)
        [.file "a.go" "2" true] [.file "a.go" "2" true] []
        (treePerm_refl _) (forestPerm_refl _)))
    (by decide)
